import Mathlib

/-!
Verification of the deduplication / entity-resolution core of the
data-analyst-job-market repository.

The embedding covers the two implementations of the core found in the
sources:

* `DeduplicateFinal` embeds scripts/deduplicate_final.py — the pure
  normalizers `normalize_text`, `normalize_company`, `normalize_title`,
  the composite key, the exact-match resolver
  (df.duplicated(keep="first")) and the final df_clean step that
  reassigns job_id.

* `JobDeduplicator` embeds src/src/data/deduplication.py — the class
  normalizers (whose `normalize_title` raises NameError because line 32
  reads the undefined name `company`), the location alias table,
  `find_duplicates` (which assigns derived columns to the DataFrame it
  is handed) and `text_similarity_check` (whose sampling step draws
  min(sample_size, len(df)) rows from the kept subpopulation).

Strings are embedded as `List Char`; the regex classes \w and \s, and
Python's str.lower / str.strip, are modelled on their ASCII meaning,
which covers every string the repository's data paths feed them.
Fallible code is modelled with `Except`.  The TF-IDF / cosine scores of
stage 2 are abstracted as rational-valued inputs: the claims about that
stage concern which pairs get reported and whether records are removed,
not the floating-point arithmetic of the scores.
-/

/-- ASCII word character: the class \w of the source regexes. -/
def isWordChar (c : Char) : Bool := c.isAlpha || c.isDigit || c == '_'

/-- ASCII whitespace: the class \s of the source regexes and the
character set stripped by str.strip(). -/
def isWs (c : Char) : Bool :=
  c == ' ' || c == '\t' || c == '\n' || c == '\r' || c == Char.ofNat 11 || c == Char.ofNat 12

/-- Python str.lower() on one ASCII character. -/
def lowerChar (c : Char) : Char :=
  if 65 ≤ c.toNat && c.toNat ≤ 90 then Char.ofNat (c.toNat + 32) else c

/-- Python str.lower(). -/
def pyLower (l : List Char) : List Char := l.map lowerChar

/-- Python str.strip(), left side. -/
def lstripWs (l : List Char) : List Char := l.dropWhile isWs

/-- Python str.strip(), right side. -/
def rstripWs (l : List Char) : List Char := (l.reverse.dropWhile isWs).reverse

/-- Python str.strip(). -/
def pyStrip (l : List Char) : List Char := rstripWs (lstripWs l)

/-- re.sub(r"\s+", " ", s): every maximal run of whitespace becomes a
single space. -/
def collapseWs : List Char → List Char
  | [] => []
  | [c] => if isWs c then [' '] else [c]
  | c :: d :: cs =>
    if isWs c then
      (if isWs d then collapseWs (d :: cs) else ' ' :: collapseWs (d :: cs))
    else c :: collapseWs (d :: cs)

/-- The \b test after a token: end of string or a non-word character. -/
def boundaryAfter : List Char → Bool
  | [] => true
  | d :: _ => !isWordChar d

/-- The first alternation token that matches at the head of l with a
word boundary after it.  All alternatives of the source regexes are
nonempty word-only tokens, so at most one of them can match here with
the boundary, and the alternation order of the regex is immaterial. -/
def findTok (toks : List (List Char)) (l : List Char) : Option (List Char) :=
  toks.find? (fun t => !t.isEmpty && t.isPrefixOf l && boundaryAfter (l.drop t.length))

/-- Consume the optional period of the company-suffix regex \b(...)\b\.? . -/
def eatDot (eat : Bool) (l : List Char) : List Char :=
  match eat, l with
  | true, '.' :: r => r
  | _, r => r

/-- One re.sub pass deleting every \b-delimited occurrence of a token of
toks (plus, when eat is set, an optional period right after it),
scanning left to right exactly as re.sub does.  prevW records whether
the previous character was a word character, in which case \b fails at
the current position.  The fuel argument is instantiated with the length
of the list. -/
def subTokensGo (toks : List (List Char)) (eat : Bool) : Nat → Bool → List Char → List Char
  | 0, _, l => l
  | _ + 1, _, [] => []
  | fuel + 1, prevW, c :: cs =>
    if prevW then c :: subTokensGo toks eat fuel (isWordChar c) cs
    else
      match findTok toks (c :: cs) with
      | some t => subTokensGo toks eat fuel false (eatDot eat ((c :: cs).drop t.length))
      | none => c :: subTokensGo toks eat fuel (isWordChar c) cs

/-- One full substitution pass of the source regexes. -/
def subTokens (toks : List (List Char)) (eat : Bool) (l : List Char) : List Char :=
  subTokensGo toks eat l.length false l

/-- str.replace(old, new): all non-overlapping occurrences, left to
right (old is nonempty for every replacement in the source). -/
def replaceAllGo (old new : List Char) : Nat → List Char → List Char
  | 0, l => l
  | _ + 1, [] => []
  | fuel + 1, c :: cs =>
    if !old.isEmpty && old.isPrefixOf (c :: cs) then
      new ++ replaceAllGo old new fuel ((c :: cs).drop old.length)
    else c :: replaceAllGo old new fuel cs

def replaceAll (l old new : List Char) : List Char := replaceAllGo old new l.length l

/-- Suffix tokens of the company regex \b(inc|llc|ltd|corporation|corp|co|company)\b\.? . -/
def companySuffixToks : List (List Char) :=
  ["inc".toList, "llc".toList, "ltd".toList, "corporation".toList,
   "corp".toList, "co".toList, "company".toList]

/-- Level tokens of deduplicate_final.py line 30: \b(i{1,3}|iv|v|vi|1|2|3|4)\b . -/
def romanLevelToksFinal : List (List Char) :=
  ["iii".toList, "ii".toList, "i".toList, "iv".toList, "v".toList, "vi".toList,
   "1".toList, "2".toList, "3".toList, "4".toList]

/-- Level tokens of deduplication.py line 29: \b(i{1,3}|iv|v|1|2|3)\b . -/
def romanLevelToksClass : List (List Char) :=
  ["iii".toList, "ii".toList, "i".toList, "iv".toList, "v".toList,
   "1".toList, "2".toList, "3".toList]

/-- Modifier tokens: \b(entry|senior|jr|sr|junior|mid|level)\b . -/
def modifierToks : List (List Char) :=
  ["entry".toList, "senior".toList, "jr".toList, "sr".toList,
   "junior".toList, "mid".toList, "level".toList]

/-- One job record: the columns of the combined dataset the core
touches, plus the job_id column that deduplicate_final.py reassigns. -/
structure Rec where
  title : Option String
  company_name : Option String
  location : Option String
  description : Option String
  source : Option String
  job_id : Int
deriving DecidableEq

namespace DeduplicateFinal

/-- normalize_text of deduplicate_final.py: empty for NaN, else lower,
strip and collapse whitespace. -/
def normalize_text : Option String → List Char
  | none => []
  | some s => collapseWs (pyStrip (pyLower s.toList))

/-- Core of normalize_company on an already produced string. -/
def normalize_company_core (l : List Char) : List Char :=
  pyStrip (collapseWs (subTokens companySuffixToks true (collapseWs (pyStrip (pyLower l)))))

/-- normalize_company of deduplicate_final.py. -/
def normalize_company (c : Option String) : List Char :=
  match c with
  | none => []
  | some s => normalize_company_core s.toList

/-- Core of normalize_title on an already produced string. -/
def normalize_title_core (l : List Char) : List Char :=
  pyStrip (collapseWs (subTokens modifierToks false
    (subTokens romanLevelToksFinal false (collapseWs (pyStrip (pyLower l))))))

/-- normalize_title of deduplicate_final.py. -/
def normalize_title (t : Option String) : List Char :=
  match t with
  | none => []
  | some s => normalize_title_core s.toList

/-- composite_key column: company_norm + "|" + title_norm + "|" + location_norm. -/
def composite_key (r : Rec) : List Char :=
  normalize_company r.company_name ++ '|' :: (normalize_title r.title ++ '|' :: normalize_text r.location)

/-- df.duplicated(subset=[composite_key], keep="first"): a row is
flagged when its key has been seen at an earlier row. -/
def markDupsGo (seen : List (List Char)) : List (List Char) → List Bool
  | [] => []
  | k :: ks => seen.contains k :: markDupsGo (k :: seen) ks

/-- The is_duplicate column of deduplicate_final.py line 49. -/
def is_duplicate (rs : List Rec) : List Bool := markDupsGo [] (rs.map composite_key)

/-- df[~df.is_duplicate]: the kept (survivor) rows, in input order. -/
def keptRows (rs : List Rec) : List Rec :=
  ((rs.zip (is_duplicate rs)).filter (fun p => !p.2)).map Prod.fst

/-- df[df.is_duplicate]: the rows marked duplicate, in input order. -/
def dupRows (rs : List Rec) : List Rec :=
  ((rs.zip (is_duplicate rs)).filter (fun p => p.2)).map Prod.fst

/-- df_clean of deduplicate_final.py lines 61-68: keep the survivors,
drop the derived columns and reassign job_id = range(1, len+1). -/
def df_clean (rs : List Rec) : List Rec :=
  (keptRows rs).mapIdx (fun i r => { r with job_id := (i : Int) + 1 })

end DeduplicateFinal

/-- Lexicographic comparison of keys by code point, the sort order of
pandas groupby on string keys. -/
def lexLe : List Char → List Char → Bool
  | [], _ => true
  | _ :: _, [] => false
  | a :: as, b :: bs =>
    decide (a.toNat < b.toNat) || (a == b && lexLe as bs)

def insertKey (k : List Char) : List (List Char) → List (List Char)
  | [] => [k]
  | x :: xs => if lexLe k x then k :: x :: xs else x :: insertKey k xs

def sortKeys (l : List (List Char)) : List (List Char) := l.foldr insertKey []

def firstSeenKeys (l : List (List Char)) : List (List Char) :=
  l.foldl (fun acc k => if acc.contains k then acc else acc ++ [k]) []

/-- df.groupby("composite_key").ngroup(): the group number of each row,
groups numbered 0.. in sorted key order. -/
def ngroup (ks : List (List Char)) : List Nat :=
  let g := sortKeys (firstSeenKeys ks)
  ks.map (fun k => g.indexOf k)

/-- df.groupby([source, duplicate_group]).size() over the flagged rows:
the list of (group key, count) pairs, keys in first-seen order. -/
def sizeByGroup (l : List (Option String × Nat)) : List ((Option String × Nat) × Nat) :=
  (l.foldl (fun acc p => if acc.contains p then acc else acc ++ [p]) []).map
    (fun p => (p, (l.filter (fun q => q == p)).length))

namespace JobDeduplicator

/-- normalize_company of deduplication.py lines 11-20. -/
def normalize_company_core (l : List Char) : List Char :=
  pyStrip (collapseWs (subTokens companySuffixToks true (pyStrip (pyLower l))))

def normalize_company (c : Option String) : List Char :=
  match c with
  | none => []
  | some s => normalize_company_core s.toList

/-- normalize_title of deduplication.py lines 22-33.  Line 32 reads
re.sub(r"\s+", " ", company) where the name company is not defined in
the function or module scope, so every non-null title raises NameError;
a null title returns the empty string at line 25 before line 32 runs. -/
def normalize_title (t : Option String) : Except String (List Char) :=
  match t with
  | none => .ok []
  | some _ => .error "NameError: name company is not defined"

/-- The substitution of deduplication.py line 29 alone, the step of
normalize_title that strips Roman numerals and levels. -/
def title_level_sub (l : List Char) : List Char :=
  subTokens romanLevelToksClass false l

/-- The alias table of normalize_location, in insertion order. -/
def locationAliases : List (List Char × List Char) :=
  [("new york city".toList, "new york".toList), ("nyc".toList, "new york".toList),
   ("sf".toList, "san francisco".toList), ("la".toList, "los angeles".toList)]

/-- normalize_location of deduplication.py lines 35-50: lower, strip,
then the four substring replacements in table order. -/
def normalize_location_core (l : List Char) : List Char :=
  locationAliases.foldl (fun acc p => replaceAll acc p.1 p.2) (pyStrip (pyLower l))

def normalize_location (lo : Option String) : List Char :=
  match lo with
  | none => []
  | some s => normalize_location_core s.toList

/-- The DataFrame as find_duplicates sees it: the ingested rows plus the
derived columns it assigns (absent until assigned). -/
structure DFD where
  rows : List Rec
  company_norm : Option (List (List Char))
  title_norm : Option (List (List Char))
  location_norm : Option (List (List Char))
  composite_key_col : Option (List (List Char))
  is_duplicate_col : Option (List Bool)
  duplicate_group_col : Option (List Nat)
deriving DecidableEq

/-- A freshly loaded DataFrame: no derived columns yet. -/
def DFD.ofRows (rs : List Rec) : DFD :=
  { rows := rs, company_norm := none, title_norm := none, location_norm := none,
    composite_key_col := none, is_duplicate_col := none, duplicate_group_col := none }

/-- find_duplicates of deduplication.py lines 52-76.  The column
assignments mutate the DataFrame the caller passed in: the first field
of the result is the returned value (or the exception), the second is
the state of the caller's DataFrame after the call.  The company_norm
assignment of line 56 completes before the title apply of line 57
raises, so on the NameError path the caller's frame already carries
company_norm. -/
def find_duplicates (df : DFD) :
    Except String (DFD × List ((Option String × Nat) × Nat)) × DFD :=
  let cn := df.rows.map (fun r => normalize_company r.company_name)
  let df1 := { df with company_norm := some cn }
  match df.rows.mapM (fun r => normalize_title r.title) with
  | .error e => (.error e, df1)
  | .ok tn =>
    let ln := df.rows.map (fun r => normalize_location r.location)
    let keys := (cn.zip (tn.zip ln)).map
      (fun p => p.1 ++ '|' :: (p.2.1 ++ '|' :: p.2.2))
    let flags := DeduplicateFinal.markDupsGo [] keys
    let groups := ngroup keys
    let df2 :=
      { df1 with
        title_norm := some tn
        location_norm := some ln
        composite_key_col := some keys
        is_duplicate_col := some flags
        duplicate_group_col := some groups }
    let summary := sizeByGroup
      ((((df.rows.map Rec.source).zip groups).zip flags).filterMap
        (fun p => if p.2 then some p.1 else none))
    (.ok (df2, summary), df2)

/-- The state of the DataFrame passed to find_duplicates after the call
returns or raises. -/
def find_duplicates_state (df : DFD) : DFD := (find_duplicates df).2

/-- df[~df.is_duplicate] of a processed frame. -/
def keptRowsD (df : DFD) : List Rec :=
  match df.is_duplicate_col with
  | none => []
  | some flags => ((df.rows.zip flags).filter (fun p => !p.2)).map Prod.fst

/-- text_similarity_check of deduplication.py lines 78-112.  Line 84
draws a sample of min(sample_size, len(df)) rows (without replacement,
default of DataFrame.sample) from the kept subpopulation, which raises
ValueError when that count exceeds the kept population; reading the
is_duplicate column of a frame that lacks it raises KeyError.  Every
other path returns the frame unchanged: the description check returns
early, and the vectorize/score block is wrapped in try/except, so its
failures are swallowed.  No path assigns to the frame. -/
def text_similarity_check (df : DFD) (sample_size : Nat) : Except String DFD :=
  match df.is_duplicate_col with
  | none => .error "KeyError: is_duplicate"
  | some flags =>
    let nonDupes := ((df.rows.zip flags).filter (fun p => !p.2)).map Prod.fst
    if nonDupes.length < min sample_size df.rows.length then
      .error "ValueError: cannot take a larger sample than population"
    else
      .ok df

/-- The pair-collection loop of lines 101-105: every index pair (i, j)
with i < j whose similarity score exceeds the threshold, in loop order.
The scores are the entries of the cosine-similarity matrix, abstracted
as rationals. -/
def similar_pairs (m : Nat) (sim : Nat → Nat → ℚ) (threshold : ℚ) : List (Nat × Nat) :=
  (List.range m).flatMap (fun i =>
    ((List.range m).filter (fun j => decide (i < j) && decide (threshold < sim i j))).map
      (fun j => (i, j)))

/-- df_final = df_clean[~df_clean.is_duplicate], line 120. -/
def df_final (df : DFD) : Except String (List Rec) :=
  match df.is_duplicate_col with
  | none => .error "KeyError: is_duplicate"
  | some flags => .ok (((df.rows.zip flags).filter (fun p => !p.2)).map Prod.fst)

end JobDeduplicator

/-! Word-boundary occurrences.  The correctness arguments about the
re.sub passes go through a predicate stating that one of the tokens
occurs \b-delimited inside a string. -/

/-- A \b-delimited occurrence of a token of toks inside l: the
character just before the token is a non-word character (for a token at
the head of l, the flag prevW says whether the character just before l
was a word character), and after the token the string ends or continues
with a non-word character. -/
def hasTokAux (toks : List (List Char)) (prevW : Bool) (l : List Char) : Prop :=
  ∃ u t v, l = u ++ t ++ v ∧ t ∈ toks ∧
    (match u.getLast? with
     | none => prevW = false
     | some a => isWordChar a = false) ∧
    boundaryAfter v = true

/-- Well-formed token lists: nonempty and word characters only.  Every
alternation of the source regexes satisfies this. -/
def wfToks (toks : List (List Char)) : Prop :=
  ∀ t ∈ toks, t ≠ [] ∧ ∀ c ∈ t, isWordChar c = true


/-- Usage lines 116-117 of deduplication.py: find_duplicates on a
freshly loaded frame, then text_similarity_check on its result. -/
def usage_stage12 (rs : List Rec) (sample_size : Nat) : Except String JobDeduplicator.DFD :=
  match (JobDeduplicator.find_duplicates (JobDeduplicator.DFD.ofRows rs)).1 with
  | .error e => .error e
  | .ok p => JobDeduplicator.text_similarity_check p.1 sample_size

/-- Single-spaced strings: every whitespace character is a plain space
and no two whitespace characters are adjacent; the output of the
whitespace collapse has this shape.  okPair checks one character
against its successor. -/
def okPair (c : Char) (d? : Option Char) : Bool :=
  !isWs c || (c == ' ' && (match d? with | some d => !isWs d | none => true))

def spaced : List Char → Bool
  | [] => true
  | c :: cs => okPair c cs.head? && spaced cs

/-- First record of the exact-dedup scenario of the spec. -/
def recAcme1 : Rec :=
  { title := some "Data Analyst II", company_name := some "Acme Inc.",
    location := some "New York, NY", description := none, source := some "a", job_id := 1 }

/-- Second record of the exact-dedup scenario of the spec. -/
def recAcme2 : Rec :=
  { title := some "data analyst", company_name := some "acme",
    location := some "nyc", description := none, source := some "b", job_id := 2 }

/-- A record with a null title: the class normalize_title returns the
empty string for it at line 25, before the broken line 32 runs, so the
class pipeline can reach stage 2 on such records. -/
def recNullTitle : Rec :=
  { title := none, company_name := some "acme", location := some "x",
    description := none, source := some "s", job_id := 1 }

/-- A plain record for the mutation counterexample. -/
def recPlain : Rec :=
  { title := some "Data Analyst", company_name := some "Acme", location := some "NY",
    description := none, source := some "s", job_id := 1 }

/-- Six records: the records at index 0 and index 5 normalize to one
composite key, the records between have distinct keys. -/
def sixRecs : List Rec :=
  [recAcme1,
   { title := some "x1", company_name := some "b1", location := some "l1",
     description := none, source := some "s", job_id := 2 },
   { title := some "x2", company_name := some "b2", location := some "l2",
     description := none, source := some "s", job_id := 3 },
   { title := some "x3", company_name := some "b3", location := some "l3",
     description := none, source := some "s", job_id := 4 },
   { title := some "x4", company_name := some "b4", location := some "l4",
     description := none, source := some "s", job_id := 5 },
   { title := some "Data Analyst 2", company_name := some "ACME inc",
     location := some "New   York,  NY", description := none, source := some "b", job_id := 6 }]

/-- A processed frame with two kept rows, for the stage-2 success path. -/
def dfTwoKept : JobDeduplicator.DFD :=
  { rows := [recPlain, recAcme2], company_norm := none, title_norm := none,
    location_norm := none, composite_key_col := none,
    is_duplicate_col := some [false, false], duplicate_group_col := none }


namespace DeduplicateFinal

theorem markDupsGo_length (seen : List (List Char)) (ks : List (List Char)) :
    (markDupsGo seen ks).length = ks.length := by
  induction ks generalizing seen with
  | nil => rfl
  | cons k ks ih => simp [markDupsGo, ih]

/-- The duplicated(keep="first") flag of row i is set exactly when the
key of row i is in the running seen set or occurs at an earlier row. -/
theorem markDupsGo_getD (ks : List (List Char)) :
    ∀ (seen : List (List Char)) (i : Nat), i < ks.length →
      ((markDupsGo seen ks).getD i false = true ↔
        ks.getD i [] ∈ seen ∨ ∃ j, j < i ∧ ks.getD j [] = ks.getD i []) := by
  induction ks with
  | nil => intro seen i h; simp at h
  | cons k ks ih =>
    intro seen i h
    cases i with
    | zero =>
      simp [markDupsGo, List.contains, List.elem_iff]
    | succ i =>
      simp only [markDupsGo, List.getD_cons_succ]
      rw [ih (k :: seen) i (by simpa using h)]
      constructor
      · rintro (hm | ⟨j, hj, he⟩)
        · rcases List.mem_cons.mp hm with he | hm
          · exact Or.inr ⟨0, Nat.succ_pos _, by simpa using he.symm⟩
          · exact Or.inl hm
        · exact Or.inr ⟨j + 1, by omega, by simpa using he⟩
      · rintro (hm | ⟨j, hj, he⟩)
        · exact Or.inl (List.mem_cons_of_mem _ hm)
        · cases j with
          | zero =>
            refine Or.inl ?_
            have : k = ks.getD i [] := by simpa using he
            exact this ▸ List.mem_cons_self _ _
          | succ j =>
            exact Or.inr ⟨j, by omega, by simpa using he⟩

theorem is_duplicate_length (rs : List Rec) : (is_duplicate rs).length = rs.length := by
  simp [is_duplicate, markDupsGo_length]

theorem key_getD (rs : List Rec) (i : Nat) (h : i < rs.length) :
    (rs.map composite_key).getD i [] = composite_key (rs.get ⟨i, h⟩) := by
  rw [List.getD_eq_getElem _ _ (by simpa using h)]
  simp

/-- Flag characterization at the record level. -/
theorem is_duplicate_true_iff (rs : List Rec) (i : Nat) (h : i < rs.length) :
    (is_duplicate rs).getD i false = true ↔
      ∃ j, ∃ hj : j < i, composite_key (rs.get ⟨j, by omega⟩) = composite_key (rs.get ⟨i, h⟩) := by
  unfold is_duplicate
  rw [markDupsGo_getD (rs.map composite_key) [] i (by simpa using h)]
  constructor
  · rintro (hm | ⟨j, hj, he⟩)
    · simp at hm
    · refine ⟨j, hj, ?_⟩
      rw [key_getD rs j (by omega), key_getD rs i h] at he
      exact he
  · rintro ⟨j, hj, he⟩
    refine Or.inr ⟨j, hj, ?_⟩
    rw [key_getD rs j (by omega), key_getD rs i h]
    exact he

theorem mem_kept_of_flag_false (rs : List Rec) (i : Nat) (h : i < rs.length)
    (hf : (is_duplicate rs).getD i false = false) : rs.get ⟨i, h⟩ ∈ keptRows rs := by
  have hlen : i < (is_duplicate rs).length := by rw [is_duplicate_length]; exact h
  have hzlen : i < (rs.zip (is_duplicate rs)).length := by
    rw [List.length_zip]; omega
  have hget : (rs.zip (is_duplicate rs)).get ⟨i, hzlen⟩ =
      (rs.get ⟨i, h⟩, (is_duplicate rs).get ⟨i, hlen⟩) := by
    simp [List.getElem_zip]
  have hmem : (rs.get ⟨i, h⟩, (is_duplicate rs).get ⟨i, hlen⟩) ∈ rs.zip (is_duplicate rs) := by
    rw [← hget]; exact List.get_mem _ _ _
  have hflag : (is_duplicate rs).get ⟨i, hlen⟩ = false := by
    rw [List.get_eq_getElem, ← List.getD_eq_getElem (is_duplicate rs) false hlen]
    exact hf
  refine List.mem_map.mpr ⟨(rs.get ⟨i, h⟩, (is_duplicate rs).get ⟨i, hlen⟩), ?_, rfl⟩
  refine List.mem_filter.mpr ⟨hmem, ?_⟩
  rw [hflag]; rfl

theorem filter_bool_partition_length {α : Type} (l : List (α × Bool)) :
    (l.filter fun p => !p.2).length + (l.filter fun p => p.2).length = l.length := by
  induction l with
  | nil => rfl
  | cons p l ih => cases hp : p.2 <;> simp [List.filter, hp] <;> omega

theorem kept_dup_length (rs : List Rec) :
    (keptRows rs).length + (dupRows rs).length = rs.length := by
  unfold keptRows dupRows
  rw [List.length_map, List.length_map, filter_bool_partition_length]
  rw [List.length_zip, is_duplicate_length]
  omega

theorem kept_append_dup_perm (rs : List Rec) : (keptRows rs ++ dupRows rs).Perm rs := by
  unfold keptRows dupRows
  rw [← List.map_append]
  have h1 : (rs.zip (is_duplicate rs)).filter (fun p => p.2) =
      (rs.zip (is_duplicate rs)).filter (fun p => !!p.2) := by
    apply List.filter_congr
    intro a _
    simp
  rw [h1]
  have h2 := List.filter_append_perm (fun p : Rec × Bool => !p.2) (rs.zip (is_duplicate rs))
  have h3 := h2.map Prod.fst
  rw [List.map_fst_zip rs (is_duplicate rs) (by rw [is_duplicate_length])] at h3
  exact h3

theorem mapIdx_job_id (l : List Rec) :
    ∀ g : Nat → Int,
      (l.mapIdx fun i r => { r with job_id := g i }).map Rec.job_id =
        (List.range l.length).map g := by
  induction l with
  | nil => intro g; rfl
  | cons r l ih =>
    intro g
    simp only [List.mapIdx_cons, List.map_cons, List.length_cons, List.range_succ_eq_map,
      List.map_map]
    rw [ih (fun i => g (i + 1))]
    rfl

end DeduplicateFinal

theorem not_word_of_ws {c : Char} (h : isWs c = true) : isWordChar c = false := by
  simp only [isWs, Bool.or_eq_true, beq_iff_eq] at h
  rcases h with ((((h | h) | h) | h) | h) | h <;> subst h <;> decide

theorem not_ws_of_word {c : Char} (h : isWordChar c = true) : isWs c = false := by
  by_cases hws : isWs c = true
  · rw [not_word_of_ws hws] at h; exact absurd h (by simp)
  · simpa using hws

theorem hasTokAux_nil {toks : List (List Char)} {f : Bool} (wf : wfToks toks) :
    ¬ hasTokAux toks f [] := by
  rintro ⟨u, t, v, heq, ht, -, -⟩
  have h := heq.symm
  simp only [List.append_eq_nil] at h
  have : t = [] := by tauto
  exact (wf t ht).1 this

/-- Prepending a character lifts an occurrence when the flag matches
the character's word status. -/
theorem hasTokAux_cons {toks : List (List Char)} {cs : List Char} (c : Char) (g : Bool)
    (h : hasTokAux toks (isWordChar c) cs) : hasTokAux toks g (c :: cs) := by
  obtain ⟨u, t, v, heq, ht, hb, hv⟩ := h
  refine ⟨c :: u, t, v, by simp [heq], ht, ?_, hv⟩
  cases u with
  | nil => simpa using hb
  | cons a u => simpa [List.getLast?_cons_cons] using hb

/-- Prepending a non-word character lifts an occurrence for any flags. -/
theorem hasTokAux_cons_nonword {toks : List (List Char)} {cs : List Char} {c : Char}
    (hc : isWordChar c = false) {f : Bool} (g : Bool)
    (h : hasTokAux toks f cs) : hasTokAux toks g (c :: cs) := by
  obtain ⟨u, t, v, heq, ht, hb, hv⟩ := h
  refine ⟨c :: u, t, v, by simp [heq], ht, ?_, hv⟩
  cases u with
  | nil => simpa using hc
  | cons a u => simpa [List.getLast?_cons_cons] using hb

/-- Prepending whitespace preserves occurrences. -/
theorem hasTokAux_append_left_ws {toks : List (List Char)} {l : List Char} {f : Bool}
    (p : List Char) (hp : ∀ c ∈ p, isWs c = true)
    (h : hasTokAux toks f l) : hasTokAux toks f (p ++ l) := by
  induction p with
  | nil => simpa using h
  | cons a p ih =>
    have ha := not_word_of_ws (hp a (List.mem_cons_self _ _))
    have := ih (fun c hc => hp c (List.mem_cons_of_mem _ hc))
    exact hasTokAux_cons_nonword ha f this

/-- Appending whitespace on the right preserves occurrences. -/
theorem hasTokAux_append_right_ws {toks : List (List Char)} {l : List Char} {f : Bool}
    (tr : List Char) (htr : ∀ c ∈ tr, isWs c = true)
    (h : hasTokAux toks f l) : hasTokAux toks f (l ++ tr) := by
  obtain ⟨u, t, v, heq, ht, hb, hv⟩ := h
  refine ⟨u, t, v ++ tr, by simp [heq], ht, hb, ?_⟩
  cases v with
  | nil =>
    cases tr with
    | nil => rfl
    | cons d tr =>
      have := not_word_of_ws (htr d (List.mem_cons_self _ _))
      simp [boundaryAfter, this]
  | cons d v => simpa [boundaryAfter] using hv

/-- Prepending anything that ends in a non-word character lifts an
occurrence for any flags. -/
theorem hasTokAux_append_snoc {toks : List (List Char)} {l : List Char} {f : Bool}
    (q : List Char) {a : Char} (ha : isWordChar a = false) (g : Bool)
    (h : hasTokAux toks f l) : hasTokAux toks g ((q ++ [a]) ++ l) := by
  obtain ⟨u, t, v, heq, ht, hb, hv⟩ := h
  refine ⟨(q ++ [a]) ++ u, t, v, by simp [heq], ht, ?_, hv⟩
  cases u with
  | nil => simpa [List.getLast?_concat] using ha
  | cons b u =>
    rw [List.getLast?_append_of_ne_nil _ (by simp)]
    simpa using hb

/-- Prepending anything preserves an occurrence inside a string whose
head is already a boundary, because a token cannot sit at such a head. -/
theorem hasTokAux_append_bdry {toks : List (List Char)} {l : List Char} {f : Bool}
    (wf : wfToks toks) (p : List Char) (hl : boundaryAfter l = true) (g : Bool)
    (h : hasTokAux toks f l) : hasTokAux toks g (p ++ l) := by
  obtain ⟨u, t, v, heq, ht, hb, hv⟩ := h
  obtain ⟨hne, hw⟩ := wf t ht
  cases u with
  | nil =>
    exfalso
    cases t with
    | nil => exact hne rfl
    | cons a t' =>
      have : l = a :: (t' ++ v) := by simpa using heq
      rw [this] at hl
      have haw : isWordChar a = true := hw a (List.mem_cons_self _ _)
      simp [boundaryAfter, haw] at hl
  | cons b u' =>
    refine ⟨p ++ b :: u', t, v, by simp [heq], ht, ?_, hv⟩
    rw [List.getLast?_append_of_ne_nil _ (by simp)]
    simpa using hb

/-- Occurrences of a token sublist are occurrences of the larger list. -/
theorem hasTokAux_mono {toks toks' : List (List Char)} {l : List Char} {f : Bool}
    (hsub : ∀ t ∈ toks', t ∈ toks) (h : hasTokAux toks' f l) : hasTokAux toks f l := by
  obtain ⟨u, t, v, heq, ht, hb, hv⟩ := h
  exact ⟨u, t, v, heq, hsub t ht, hb, hv⟩

theorem findTok_some {toks : List (List Char)} {l t : List Char}
    (h : findTok toks l = some t) :
    t ∈ toks ∧ t ≠ [] ∧ t <+: l ∧ boundaryAfter (l.drop t.length) = true := by
  have hm := List.mem_of_find?_eq_some h
  have hp := List.find?_some h
  rw [Bool.and_eq_true, Bool.and_eq_true] at hp
  obtain ⟨⟨h1, h2⟩, h3⟩ := hp
  refine ⟨hm, ?_, List.isPrefixOf_iff_prefix.mp h2, h3⟩
  intro hnil
  subst hnil
  simp at h1

theorem findTok_none {toks : List (List Char)} {l : List Char}
    (h : findTok toks l = none) (t : List Char) (ht : t ∈ toks)
    (hne : t ≠ []) (hpre : t <+: l) (hb : boundaryAfter (l.drop t.length) = true) : False := by
  apply List.find?_eq_none.mp h t ht
  rw [Bool.and_eq_true, Bool.and_eq_true]
  exact ⟨⟨by simpa using hne, List.isPrefixOf_iff_prefix.mpr hpre⟩, hb⟩

/-- A successful findTok is itself a boundary occurrence at the head. -/
theorem hasTokAux_of_findTok {toks : List (List Char)} {l t : List Char}
    (h : findTok toks l = some t) : hasTokAux toks false l := by
  obtain ⟨hm, hne, ⟨v, hv⟩, hb⟩ := findTok_some h
  refine ⟨[], t, v, by simp [hv.symm], hm, rfl, ?_⟩
  rw [← hv, List.drop_left] at hb
  exact hb

/-- With the flag set, the pass copies the maximal word prefix
unchanged and the remainder of the output starts at a boundary. -/
theorem subTokensGo_true_shape (toks : List (List Char)) (eat : Bool) :
    ∀ (fuel : Nat) (l : List Char), l.length ≤ fuel →
      ∃ X, subTokensGo toks eat fuel true l = l.takeWhile isWordChar ++ X ∧
        boundaryAfter X = true := by
  intro fuel
  induction fuel with
  | zero =>
    intro l h
    have : l = [] := List.length_eq_zero.mp (Nat.le_zero.mp h)
    subst this
    exact ⟨[], rfl, rfl⟩
  | succ fuel ih =>
    intro l h
    cases l with
    | nil => exact ⟨[], rfl, rfl⟩
    | cons c cs =>
      by_cases hc : isWordChar c = true
      · obtain ⟨X, hX, hb⟩ := ih cs (by simp at h; omega)
        refine ⟨X, ?_, hb⟩
        simp only [subTokensGo, if_pos rfl, hc, List.takeWhile_cons, if_pos]
        rw [hX, List.cons_append]
      · rw [Bool.not_eq_true] at hc
        refine ⟨c :: subTokensGo toks eat fuel (isWordChar c) cs, ?_, by simp [boundaryAfter, hc]⟩
        simp only [subTokensGo, if_pos rfl, List.takeWhile_cons, hc]
        rfl

theorem bdry_dropWhile_word (l : List Char) :
    boundaryAfter (l.dropWhile isWordChar) = true := by
  induction l with
  | nil => rfl
  | cons c cs ih =>
    by_cases hc : isWordChar c = true
    · simpa [List.dropWhile_cons, hc] using ih
    · rw [Bool.not_eq_true] at hc
      simp [List.dropWhile_cons, hc, boundaryAfter]

theorem drop_takeWhile_length_word (l : List Char) :
    l.drop (l.takeWhile isWordChar).length = l.dropWhile isWordChar := by
  have h := List.takeWhile_append_dropWhile (p := isWordChar) (l := l)
  calc l.drop (l.takeWhile isWordChar).length
      = (l.takeWhile isWordChar ++ l.dropWhile isWordChar).drop
          (l.takeWhile isWordChar).length := by rw [h]
    _ = l.dropWhile isWordChar := List.drop_left _ _

/-- An all-word list that is a prefix of w ++ X, ending at a boundary,
with w all-word and X starting at a boundary, is w itself. -/
theorem words_eq_of_pref (t : List Char) :
    ∀ (w X : List Char), (∀ a ∈ t, isWordChar a = true) → (∀ a ∈ w, isWordChar a = true) →
      boundaryAfter X = true → t <+: (w ++ X) →
      boundaryAfter ((w ++ X).drop t.length) = true → t = w := by
  induction t with
  | nil =>
    intro w X _ hw hX _ hb
    cases w with
    | nil => rfl
    | cons a w' =>
      have haw := hw a (List.mem_cons_self _ _)
      simp [boundaryAfter, haw] at hb
  | cons a t' ih =>
    intro w X ht hw hX hpre hb
    cases w with
    | nil =>
      exfalso
      obtain ⟨v, hv⟩ := hpre
      cases X with
      | nil => simp at hv
      | cons d X' =>
        have : a = d := by simpa using congrArg (fun l => l.head?) hv
        have haw := ht a (List.mem_cons_self _ _)
        rw [this] at haw
        simp [boundaryAfter, haw] at hX
    | cons b w' =>
      obtain ⟨v, hv⟩ := hpre
      rw [List.cons_append, List.cons_append] at hv
      have hab : a = b := by simpa using congrArg (fun l => l.head?) hv
      have htail : t' ++ v = w' ++ X := by simpa using congrArg List.tail hv
      have hres : t' = w' := by
        refine ih w' X (fun x hx => ht x (List.mem_cons_of_mem _ hx))
          (fun x hx => hw x (List.mem_cons_of_mem _ hx)) hX ⟨v, htail⟩ ?_
        simpa [List.drop_succ_cons] using hb
      rw [hab, hres]

/-- Pulling a head occurrence back through a pass that preserved the
maximal word prefix: the token also occurs with its boundary at the
head of the original string. -/
theorem tok_pull {toks : List (List Char)} (wf : wfToks toks) {t : List Char} (c : Char)
    (cs X : List Char) (ht : t ∈ toks) (hX : boundaryAfter X = true)
    (hpre : t <+: (c :: (cs.takeWhile isWordChar ++ X)))
    (hb : boundaryAfter ((c :: (cs.takeWhile isWordChar ++ X)).drop t.length) = true) :
    t <+: (c :: cs) ∧ boundaryAfter ((c :: cs).drop t.length) = true := by
  obtain ⟨hne, hw⟩ := wf t ht
  cases t with
  | nil => exact absurd rfl hne
  | cons a t' =>
    obtain ⟨v, hv⟩ := hpre
    rw [List.cons_append] at hv
    have hac : a = c := by simpa using congrArg (fun l => l.head?) hv
    have htail : t' ++ v = cs.takeWhile isWordChar ++ X := by
      simpa using congrArg List.tail hv
    have ht' : t' = cs.takeWhile isWordChar := by
      refine words_eq_of_pref t' _ X (fun x hx => hw x (List.mem_cons_of_mem _ hx))
        (fun x hx => List.mem_takeWhile_imp hx) hX ⟨v, htail⟩ ?_
      simpa [List.drop_succ_cons] using hb
    subst hac
    constructor
    · obtain ⟨v', hv'⟩ := List.takeWhile_prefix (l := cs) isWordChar
      exact ⟨v', by rw [ht']; simp [hv']⟩
    · rw [ht']
      simp only [List.length_cons, List.drop_succ_cons]
      rw [drop_takeWhile_length_word]
      exact bdry_dropWhile_word cs

/-- Destructuring an occurrence in a cons: either a token with its
boundary sits at the head (with the flag clear), or the occurrence is
inside the tail. -/
theorem hasTokAux_cons_elim {toks : List (List Char)} {c : Char} {cs : List Char} {f : Bool}
    (h : hasTokAux toks f (c :: cs)) :
    (f = false ∧ ∃ t ∈ toks, t <+: (c :: cs) ∧ boundaryAfter ((c :: cs).drop t.length) = true)
    ∨ hasTokAux toks (isWordChar c) cs := by
  obtain ⟨u, t, v, heq, ht, hb, hv⟩ := h
  cases u with
  | nil =>
    left
    have hf : f = false := by simpa using hb
    refine ⟨hf, t, ht, ⟨v, by simpa using heq.symm⟩, ?_⟩
    have hl : c :: cs = t ++ v := by simpa using heq
    rw [hl, List.drop_left]
    exact hv
  | cons a u' =>
    right
    have hac : a = c := by simpa using congrArg (fun l => l.head?) heq.symm
    have htl : cs = u' ++ t ++ v := by simpa using congrArg List.tail heq
    refine ⟨u', t, v, htl, ht, ?_, hv⟩
    cases u' with
    | nil =>
      subst hac
      simpa using hb
    | cons b u'' =>
      simpa [List.getLast?_cons_cons] using hb

/-- A token with its boundary at the head is an occurrence. -/
theorem hasTokAux_of_bdry_pref {toks : List (List Char)} {t l : List Char}
    (ht : t ∈ toks) (hp : t <+: l) (hb : boundaryAfter (l.drop t.length) = true) :
    hasTokAux toks false l := by
  obtain ⟨v, hv⟩ := hp
  refine ⟨[], t, v, by simp [hv.symm], ht, rfl, ?_⟩
  rw [← hv, List.drop_left] at hb
  exact hb

theorem eatDot_cases (eat : Bool) (rest : List Char) :
    eatDot eat rest = rest ∨
      (eat = true ∧ ∃ r₂, rest = '.' :: r₂ ∧ eatDot eat rest = r₂) := by
  unfold eatDot
  split
  · rename_i r₂
    exact Or.inr ⟨rfl, r₂, rfl, rfl⟩
  · exact Or.inl rfl

theorem eatDot_length_le (eat : Bool) (rest : List Char) :
    (eatDot eat rest).length ≤ rest.length := by
  rcases eatDot_cases eat rest with h | ⟨-, r₂, hr, h⟩
  · rw [h]
  · rw [h, hr]; simp

/-- Unfolding equations of the pass. -/
theorem subTokensGo_succ_true (toks : List (List Char)) (eat : Bool) (fuel : Nat)
    (c : Char) (cs : List Char) :
    subTokensGo toks eat (fuel + 1) true (c :: cs) =
      c :: subTokensGo toks eat fuel (isWordChar c) cs := by
  simp [subTokensGo]

theorem subTokensGo_succ_none {toks : List (List Char)} {c : Char} {cs : List Char}
    (eat : Bool) (fuel : Nat) (hft : findTok toks (c :: cs) = none) :
    subTokensGo toks eat (fuel + 1) false (c :: cs) =
      c :: subTokensGo toks eat fuel (isWordChar c) cs := by
  simp [subTokensGo, hft]

theorem subTokensGo_succ_some {toks : List (List Char)} {c : Char} {cs t : List Char}
    (eat : Bool) (fuel : Nat) (hft : findTok toks (c :: cs) = some t) :
    subTokensGo toks eat (fuel + 1) false (c :: cs) =
      subTokensGo toks eat fuel false (eatDot eat ((c :: cs).drop t.length)) := by
  simp [subTokensGo, hft]

/-- Word status of the head under a token occurring at the head. -/
theorem head_word_of_tok {toks : List (List Char)} (wf : wfToks toks) {t : List Char}
    {c : Char} {l : List Char} (ht : t ∈ toks) (hp : t <+: (c :: l)) :
    isWordChar c = true := by
  obtain ⟨hne, hw⟩ := wf t ht
  cases t with
  | nil => exact absurd rfl hne
  | cons a t' =>
    obtain ⟨v, hv⟩ := hp
    have : a = c := by simpa using congrArg (fun x => x.head?) hv
    exact this ▸ hw a (List.mem_cons_self _ _)

/-- The output of a substitution pass contains no boundary occurrence
of any of its own tokens. -/
theorem subTokensGo_noTok {toks : List (List Char)} (wf : wfToks toks) (eat : Bool) :
    ∀ (fuel : Nat) (l : List Char) (prevW : Bool), l.length ≤ fuel →
      ¬ hasTokAux toks prevW (subTokensGo toks eat fuel prevW l) := by
  intro fuel
  induction fuel with
  | zero =>
    intro l prevW h
    have : l = [] := List.length_eq_zero.mp (Nat.le_zero.mp h)
    subst this
    exact hasTokAux_nil wf
  | succ fuel ih =>
    intro l prevW h
    cases l with
    | nil =>
      simp only [subTokensGo]
      exact hasTokAux_nil wf
    | cons c cs =>
      have hcs : cs.length ≤ fuel := by simp at h; omega
      by_cases hp : prevW = true
      · subst hp
        rw [subTokensGo_succ_true]
        intro hcontra
        rcases hasTokAux_cons_elim hcontra with ⟨hf, -⟩ | hrec
        · cases hf
        · exact ih cs (isWordChar c) hcs hrec
      · have hp' : prevW = false := by simpa using hp
        subst hp'
        cases hft : findTok toks (c :: cs) with
        | some t =>
          obtain ⟨-, htne, -, -⟩ := findTok_some hft
          rw [subTokensGo_succ_some eat fuel hft]
          have hlen2 : (eatDot eat ((c :: cs).drop t.length)).length ≤ fuel := by
            have h1 := eatDot_length_le eat ((c :: cs).drop t.length)
            have h2 : ((c :: cs).drop t.length).length = cs.length + 1 - t.length := by
              rw [List.length_drop]
              simp
            have h3 : 1 ≤ t.length := List.length_pos.mpr htne
            omega
          exact ih _ false hlen2
        | none =>
          rw [subTokensGo_succ_none eat fuel hft]
          intro hcontra
          rcases hasTokAux_cons_elim hcontra with ⟨-, t, ht, hpre, hb⟩ | hrec
          · have hcw : isWordChar c = true := head_word_of_tok wf ht hpre
            rw [hcw] at hpre hb
            obtain ⟨X, hX, hXb⟩ := subTokensGo_true_shape toks eat fuel cs hcs
            rw [hX] at hpre hb
            obtain ⟨hpre', hb'⟩ := tok_pull wf c cs X ht hXb hpre hb
            exact findTok_none hft t ht (wf t ht).1 hpre' hb'
          · exact ih cs (isWordChar c) hcs hrec

/-- A substitution pass with token set B cannot create a boundary
occurrence of a token of a well-formed set A: occurrences in the output
pull back to the input. -/
theorem subTokensGo_pull {A B : List (List Char)} (wfA : wfToks A) (eat : Bool) :
    ∀ (fuel : Nat) (l : List Char) (prevW : Bool), l.length ≤ fuel →
      hasTokAux A prevW (subTokensGo B eat fuel prevW l) → hasTokAux A prevW l := by
  intro fuel
  induction fuel with
  | zero =>
    intro l prevW h hcontra
    exact hcontra
  | succ fuel ih =>
    intro l prevW h
    cases l with
    | nil =>
      simp only [subTokensGo]
      exact fun hcontra => hcontra
    | cons c cs =>
      have hcs : cs.length ≤ fuel := by simp at h; omega
      by_cases hp : prevW = true
      · subst hp
        rw [subTokensGo_succ_true]
        intro hcontra
        rcases hasTokAux_cons_elim hcontra with ⟨hf, -⟩ | hrec
        · cases hf
        · exact hasTokAux_cons c true (ih cs (isWordChar c) hcs hrec)
      · have hp' : prevW = false := by simpa using hp
        subst hp'
        cases hft : findTok B (c :: cs) with
        | some t =>
          obtain ⟨htB, htne, ⟨rest, hrest⟩, hbd⟩ := findTok_some hft
          have hdrop : (c :: cs).drop t.length = rest := by
            rw [← hrest]; exact List.drop_left _ _
          rw [subTokensGo_succ_some eat fuel hft, hdrop]
          have hlen2 : (eatDot eat rest).length ≤ fuel := by
            have h1 := eatDot_length_le eat rest
            have h2 : rest.length = cs.length + 1 - t.length := by
              rw [← hdrop, List.length_drop]
              simp
            have h3 : 1 ≤ t.length := List.length_pos.mpr htne
            omega
          intro hcontra
          have h2 := ih _ false hlen2 hcontra
          rcases eatDot_cases eat rest with he | ⟨-, r₂, hr, he⟩
          · rw [he] at h2
            have hres := hasTokAux_append_bdry wfA t (by rw [hdrop] at hbd; exact hbd) false h2
            rw [hrest] at hres
            exact hres
          · rw [he] at h2
            have hres := hasTokAux_append_snoc (a := '.') t (by decide) false h2
            have hout : (t ++ ['.']) ++ r₂ = c :: cs := by
              rw [← hrest, hr]
              simp
            rw [hout] at hres
            exact hres
        | none =>
          rw [subTokensGo_succ_none eat fuel hft]
          intro hcontra
          rcases hasTokAux_cons_elim hcontra with ⟨-, t, ht, hpre, hb⟩ | hrec
          · have hcw : isWordChar c = true := head_word_of_tok wfA ht hpre
            rw [hcw] at hpre hb
            obtain ⟨X, hX, hXb⟩ := subTokensGo_true_shape B eat fuel cs hcs
            rw [hX] at hpre hb
            obtain ⟨hpre', hb'⟩ := tok_pull wfA c cs X ht hXb hpre hb
            exact hasTokAux_of_bdry_pref ht hpre' hb'
          · exact hasTokAux_cons c false (ih cs (isWordChar c) hcs hrec)

/-- A substitution pass is the identity on strings without boundary
occurrences of its tokens. -/
theorem subTokensGo_eq_self {toks : List (List Char)} (eat : Bool) :
    ∀ (fuel : Nat) (l : List Char) (prevW : Bool), l.length ≤ fuel →
      ¬ hasTokAux toks prevW l → subTokensGo toks eat fuel prevW l = l := by
  intro fuel
  induction fuel with
  | zero =>
    intro l prevW h hno
    rfl
  | succ fuel ih =>
    intro l prevW h hno
    cases l with
    | nil => rfl
    | cons c cs =>
      have hcs : cs.length ≤ fuel := by simp at h; omega
      have hrec : ¬ hasTokAux toks (isWordChar c) cs := by
        intro hcontra
        exact hno (hasTokAux_cons c prevW hcontra)
      by_cases hp : prevW = true
      · subst hp
        rw [subTokensGo_succ_true, ih cs (isWordChar c) hcs hrec]
      · have hp' : prevW = false := by simpa using hp
        subst hp'
        cases hft : findTok toks (c :: cs) with
        | some t =>
          exact absurd (hasTokAux_of_findTok hft) hno
        | none =>
          rw [subTokensGo_succ_none eat fuel hft, ih cs (isWordChar c) hcs hrec]

/-! Whitespace collapsing, stripping and lower-casing: supporting
lemmas for the idempotence results. -/

theorem collapse_nonws_append (p r : List Char) (hp : ∀ a ∈ p, isWs a = false) :
    collapseWs (p ++ r) = p ++ collapseWs r := by
  induction p with
  | nil => rfl
  | cons a p ih =>
    have ha : isWs a = false := hp a (List.mem_cons_self _ _)
    have hrest : ∀ b ∈ p, isWs b = false := fun b hb => hp b (List.mem_cons_of_mem _ hb)
    rw [List.cons_append]
    cases hpe : p ++ r with
    | nil =>
      obtain ⟨hp0, hr0⟩ := List.append_eq_nil.mp hpe
      subst hp0; subst hr0
      simp [collapseWs, ha]
    | cons e rest =>
      rw [show collapseWs (a :: e :: rest) = a :: collapseWs (e :: rest) by
        simp [collapseWs, ha]]
      rw [← hpe, ih hrest, List.cons_append]

theorem collapse_bdry (l : List Char) (hl : boundaryAfter l = true) :
    boundaryAfter (collapseWs l) = true := by
  induction l with
  | nil => rfl
  | cons c cs ih =>
    cases cs with
    | nil =>
      by_cases hc : isWs c = true
      · simp [collapseWs, hc, boundaryAfter]
        decide
      · rw [Bool.not_eq_true] at hc
        simpa [collapseWs, hc, boundaryAfter] using hl
    | cons d cs' =>
      by_cases hc : isWs c = true
      · by_cases hd : isWs d = true
        · rw [show collapseWs (c :: d :: cs') = collapseWs (d :: cs') by
            simp [collapseWs, hc, hd]]
          exact ih (by simp [boundaryAfter, not_word_of_ws hd])
        · rw [Bool.not_eq_true] at hd
          rw [show collapseWs (c :: d :: cs') = ' ' :: collapseWs (d :: cs') by
            simp [collapseWs, hc, hd]]
          simp [boundaryAfter]
          decide
      · rw [Bool.not_eq_true] at hc
        rw [show collapseWs (c :: d :: cs') = c :: collapseWs (d :: cs') by
          simp [collapseWs, hc]]
        simpa [boundaryAfter] using hl

theorem collapse_shape (l : List Char) :
    ∃ X, collapseWs l = l.takeWhile isWordChar ++ X ∧ boundaryAfter X = true := by
  refine ⟨collapseWs (l.dropWhile isWordChar), ?_, ?_⟩
  · calc collapseWs l
        = collapseWs (l.takeWhile isWordChar ++ l.dropWhile isWordChar) := by
          rw [List.takeWhile_append_dropWhile]
      _ = l.takeWhile isWordChar ++ collapseWs (l.dropWhile isWordChar) :=
          collapse_nonws_append _ _
            (fun a ha => not_ws_of_word (List.mem_takeWhile_imp ha))
  · exact collapse_bdry _ (bdry_dropWhile_word l)

/-- Occurrences inside a collapsed string pull back to the original. -/
theorem hasTok_pull_collapse {toks : List (List Char)} (wf : wfToks toks) :
    ∀ (l : List Char) (f : Bool), hasTokAux toks f (collapseWs l) → hasTokAux toks f l := by
  intro l
  induction l with
  | nil => intro f h; simpa using h
  | cons c cs ih =>
    intro f h
    by_cases hc : isWs c = true
    · cases cs with
      | nil =>
        exfalso
        rw [show collapseWs [c] = [' '] by simp [collapseWs, hc]] at h
        rcases hasTokAux_cons_elim h with ⟨-, t, ht, hpre, -⟩ | hrec
        · exact absurd (head_word_of_tok wf ht hpre) (by decide)
        · exact hasTokAux_nil wf hrec
      | cons d cs' =>
        by_cases hd : isWs d = true
        · rw [show collapseWs (c :: d :: cs') = collapseWs (d :: cs') by
            simp [collapseWs, hc, hd]] at h
          exact hasTokAux_cons_nonword (not_word_of_ws hc) f (ih f h)
        · rw [Bool.not_eq_true] at hd
          rw [show collapseWs (c :: d :: cs') = ' ' :: collapseWs (d :: cs') by
            simp [collapseWs, hc, hd]] at h
          rcases hasTokAux_cons_elim h with ⟨-, t, ht, hpre, -⟩ | hrec
          · exact absurd (head_word_of_tok wf ht hpre) (by decide)
          · exact hasTokAux_cons_nonword (not_word_of_ws hc) f (ih _ hrec)
    · rw [Bool.not_eq_true] at hc
      rw [show collapseWs (c :: cs) = c :: collapseWs cs by
        cases cs with
        | nil => simp [collapseWs, hc]
        | cons d cs' => simp [collapseWs, hc]] at h
      rcases hasTokAux_cons_elim h with ⟨hf, t, ht, hpre, hb⟩ | hrec
      · subst hf
        have hcw : isWordChar c = true := head_word_of_tok wf ht hpre
        obtain ⟨X, hX, hXb⟩ := collapse_shape cs
        rw [hX] at hpre hb
        obtain ⟨hpre', hb'⟩ := tok_pull wf c cs X ht hXb hpre hb
        exact hasTokAux_of_bdry_pref ht hpre' hb'
      · exact hasTokAux_cons c f (ih _ hrec)

/-- The right-strip output is a prefix with an all-whitespace tail. -/
theorem rstrip_decomp (l : List Char) :
    l = rstripWs l ++ (l.reverse.takeWhile isWs).reverse ∧
      ∀ c ∈ (l.reverse.takeWhile isWs).reverse, isWs c = true := by
  constructor
  · have h := List.takeWhile_append_dropWhile (p := isWs) (l := l.reverse)
    have h2 := congrArg List.reverse h
    rw [List.reverse_append, List.reverse_reverse] at h2
    exact h2.symm
  · intro c hc
    rw [List.mem_reverse] at hc
    exact List.mem_takeWhile_imp hc

theorem hasTok_pull_lstrip {toks : List (List Char)} {l : List Char} {f : Bool}
    (h : hasTokAux toks f (lstripWs l)) : hasTokAux toks f l := by
  have hd : l.takeWhile isWs ++ lstripWs l = l :=
    List.takeWhile_append_dropWhile (p := isWs) (l := l)
  have := hasTokAux_append_left_ws (l.takeWhile isWs)
    (fun c hc => List.mem_takeWhile_imp hc) h
  rwa [hd] at this

theorem hasTok_pull_rstrip {toks : List (List Char)} {l : List Char} {f : Bool}
    (h : hasTokAux toks f (rstripWs l)) : hasTokAux toks f l := by
  obtain ⟨hdec, hws⟩ := rstrip_decomp l
  have := hasTokAux_append_right_ws _ hws h
  rwa [← hdec] at this

theorem hasTok_pull_pyStrip {toks : List (List Char)} {l : List Char} {f : Bool}
    (h : hasTokAux toks f (pyStrip l)) : hasTokAux toks f l :=
  hasTok_pull_lstrip (hasTok_pull_rstrip h)

theorem lstrip_head_not_ws (l : List Char) :
    ∀ a, (lstripWs l).head? = some a → isWs a = false := by
  induction l with
  | nil => intro a h; simp [lstripWs] at h
  | cons c cs ih =>
    intro a h
    by_cases hc : isWs c = true
    · exact ih a (by simpa [lstripWs, List.dropWhile_cons, hc] using h)
    · rw [Bool.not_eq_true] at hc
      simp [lstripWs, List.dropWhile_cons, hc] at h
      rw [← h]
      exact hc

theorem lstrip_eq_self (l : List Char) (h : ∀ a, l.head? = some a → isWs a = false) :
    lstripWs l = l := by
  cases l with
  | nil => rfl
  | cons c cs => simp [lstripWs, List.dropWhile_cons, h c rfl]

theorem dropWhile_idem_ws (x : List Char) :
    (x.dropWhile isWs).dropWhile isWs = x.dropWhile isWs := by
  cases hx : x.dropWhile isWs with
  | nil => rfl
  | cons b bs =>
    have hb : isWs b = false :=
      lstrip_head_not_ws x b (by simp [lstripWs, hx])
    simp [List.dropWhile_cons, hb]

theorem rstrip_idem (l : List Char) : rstripWs (rstripWs l) = rstripWs l := by
  unfold rstripWs
  rw [List.reverse_reverse, dropWhile_idem_ws]

theorem pyStrip_idem (l : List Char) : pyStrip (pyStrip l) = pyStrip l := by
  unfold pyStrip
  have h1 : lstripWs (rstripWs (lstripWs l)) = rstripWs (lstripWs l) := by
    apply lstrip_eq_self
    intro a ha
    cases hr : rstripWs (lstripWs l) with
    | nil => rw [hr] at ha; simp at ha
    | cons b bs =>
      rw [hr] at ha
      simp at ha
      obtain ⟨hdec, -⟩ := rstrip_decomp (lstripWs l)
      rw [hr] at hdec
      have hb : (lstripWs l).head? = some b := by
        cases hl : lstripWs l with
        | nil => rw [hl] at hdec; simp at hdec
        | cons x xs =>
          rw [hl] at hdec
          have : x = b := by simpa using congrArg (fun t => t.head?) hdec
          simp [this]
      rw [← ha]
      exact lstrip_head_not_ws l b hb
  rw [h1, rstrip_idem]

theorem okPair_none_of_some {c d : Char} (h : okPair c (some d) = true) :
    okPair c none = true := by
  simp only [okPair, Bool.or_eq_true, Bool.and_eq_true] at *
  rcases h with h | ⟨h1, -⟩
  · exact Or.inl h
  · exact Or.inr ⟨h1, trivial⟩

theorem spaced_append_left (u v : List Char) (h : spaced (u ++ v) = true) :
    spaced v = true := by
  induction u with
  | nil => simpa using h
  | cons a u ih =>
    rw [List.cons_append] at h
    simp only [spaced, Bool.and_eq_true] at h
    exact ih h.2

theorem spaced_append_right (u v : List Char) (h : spaced (u ++ v) = true) :
    spaced u = true := by
  induction u with
  | nil => rfl
  | cons a u ih =>
    rw [List.cons_append] at h
    simp only [spaced, Bool.and_eq_true] at h ⊢
    refine ⟨?_, ih h.2⟩
    cases u with
    | nil =>
      cases v with
      | nil => simpa using h.1
      | cons b v' => exact okPair_none_of_some (by simpa using h.1)
    | cons b u' => simpa using h.1

theorem collapse_head_nonws (d : Char) (cs' : List Char) (hd : isWs d = false) :
    (collapseWs (d :: cs')).head? = some d := by
  cases cs' <;> simp [collapseWs, hd]

theorem spaced_collapse (l : List Char) : spaced (collapseWs l) = true := by
  induction l with
  | nil => rfl
  | cons c cs ih =>
    cases cs with
    | nil =>
      by_cases hc : isWs c = true
      · rw [show collapseWs [c] = [' '] by simp [collapseWs, hc]]
        decide
      · rw [Bool.not_eq_true] at hc
        rw [show collapseWs [c] = [c] by simp [collapseWs, hc]]
        simp [spaced, okPair, hc]
    | cons d cs' =>
      by_cases hc : isWs c = true
      · by_cases hd : isWs d = true
        · rw [show collapseWs (c :: d :: cs') = collapseWs (d :: cs') by
            simp [collapseWs, hc, hd]]
          exact ih
        · rw [Bool.not_eq_true] at hd
          rw [show collapseWs (c :: d :: cs') = ' ' :: collapseWs (d :: cs') by
            simp [collapseWs, hc, hd]]
          simp only [spaced, Bool.and_eq_true]
          refine ⟨?_, ih⟩
          rw [collapse_head_nonws d cs' hd]
          simp [okPair, hd]
      · rw [Bool.not_eq_true] at hc
        rw [show collapseWs (c :: d :: cs') = c :: collapseWs (d :: cs') by
          simp [collapseWs, hc]]
        simp only [spaced, Bool.and_eq_true]
        refine ⟨?_, ih⟩
        simp [okPair, hc]

theorem collapse_eq_self_of_spaced (l : List Char) (h : spaced l = true) :
    collapseWs l = l := by
  induction l with
  | nil => rfl
  | cons c cs ih =>
    have h' := h
    simp only [spaced, Bool.and_eq_true] at h'
    obtain ⟨h1, h2⟩ := h'
    cases cs with
    | nil =>
      by_cases hc : isWs c = true
      · have hsp : c = ' ' := by
          simp only [okPair, hc, Bool.not_true, Bool.false_or, Bool.and_eq_true,
            beq_iff_eq] at h1
          exact h1.1
        subst hsp
        simp [collapseWs]
      · rw [Bool.not_eq_true] at hc
        simp [collapseWs, hc]
    | cons d cs' =>
      by_cases hc : isWs c = true
      · have hsp : c = ' ' ∧ isWs d = false := by
          simp only [okPair, hc, Bool.not_true, Bool.false_or, Bool.and_eq_true,
            beq_iff_eq, List.head?_cons] at h1
          exact ⟨h1.1, by simpa using h1.2⟩
        rw [show collapseWs (c :: d :: cs') = ' ' :: collapseWs (d :: cs') by
          simp [collapseWs, hc, hsp.2]]
        rw [ih h2, hsp.1]
      · rw [Bool.not_eq_true] at hc
        rw [show collapseWs (c :: d :: cs') = c :: collapseWs (d :: cs') by
          simp [collapseWs, hc]]
        rw [ih h2]

theorem spaced_lstrip (l : List Char) (h : spaced l = true) :
    spaced (lstripWs l) = true := by
  have hd : l.takeWhile isWs ++ lstripWs l = l :=
    List.takeWhile_append_dropWhile (p := isWs) (l := l)
  exact spaced_append_left _ _ (by rwa [hd])

theorem spaced_rstrip (l : List Char) (h : spaced l = true) :
    spaced (rstripWs l) = true := by
  obtain ⟨hdec, -⟩ := rstrip_decomp l
  exact spaced_append_right _ _ (by rwa [← hdec])

theorem spaced_pyStrip (l : List Char) (h : spaced l = true) :
    spaced (pyStrip l) = true :=
  spaced_rstrip _ (spaced_lstrip _ h)

theorem char_ofNat_toNat {n : Nat} (h1 : 97 ≤ n) (h2 : n ≤ 122) :
    (Char.ofNat n).toNat = n := by
  have hv : n.isValidChar := Or.inl (by omega)
  simp [Char.ofNat, hv, Char.ofNatAux, Char.toNat]
  rfl

theorem lowerChar_idem (c : Char) : lowerChar (lowerChar c) = lowerChar c := by
  unfold lowerChar
  by_cases h : 65 ≤ c.toNat ∧ c.toNat ≤ 90
  · have hb : (65 ≤ c.toNat && c.toNat ≤ 90) = true := by
      simp [h.1, h.2]
    rw [if_pos hb]
    have ht : (Char.ofNat (c.toNat + 32)).toNat = c.toNat + 32 :=
      char_ofNat_toNat (by omega) (by omega)
    have hb2 : (65 ≤ (Char.ofNat (c.toNat + 32)).toNat &&
        (Char.ofNat (c.toNat + 32)).toNat ≤ 90) = false := by
      rw [ht]
      simp only [Bool.and_eq_false_iff, decide_eq_false_iff_not]
      right
      omega
    rw [if_neg (by simp [hb2])]
  · have hb : (65 ≤ c.toNat && c.toNat ≤ 90) = false := by
      rcases Decidable.not_and_iff_or_not.mp h with h1 | h1 <;> simp [h1]
    rw [if_neg (by simp [hb]), if_neg (by simp [hb])]

theorem pyLower_fix (l : List Char) (h : ∀ c ∈ l, lowerChar c = c) : pyLower l = l := by
  unfold pyLower
  induction l with
  | nil => rfl
  | cons c cs ih =>
    rw [List.map_cons, h c (List.mem_cons_self _ _),
      ih (fun b hb => h b (List.mem_cons_of_mem _ hb))]

theorem mem_eatDot {a : Char} (eat : Bool) (l : List Char) (h : a ∈ eatDot eat l) :
    a ∈ l := by
  rcases eatDot_cases eat l with he | ⟨-, r₂, hr, he⟩
  · rwa [he] at h
  · rw [he] at h
    rw [hr]
    exact List.mem_cons_of_mem _ h

theorem mem_subTokensGo {toks : List (List Char)} {eat : Bool} :
    ∀ (fuel : Nat) (prevW : Bool) (l : List Char) (a : Char),
      a ∈ subTokensGo toks eat fuel prevW l → a ∈ l := by
  intro fuel
  induction fuel with
  | zero => intro prevW l a h; exact h
  | succ fuel ih =>
    intro prevW l a h
    cases l with
    | nil => simp [subTokensGo] at h
    | cons c cs =>
      by_cases hp : prevW = true
      · subst hp
        rw [subTokensGo_succ_true] at h
        rcases List.mem_cons.mp h with h | h
        · exact h ▸ List.mem_cons_self _ _
        · exact List.mem_cons_of_mem _ (ih _ cs a h)
      · have hp' : prevW = false := by simpa using hp
        subst hp'
        cases hft : findTok toks (c :: cs) with
        | some t =>
          rw [subTokensGo_succ_some eat fuel hft] at h
          have h1 := ih _ _ a h
          have h2 := mem_eatDot _ _ h1
          exact List.mem_of_mem_drop h2
        | none =>
          rw [subTokensGo_succ_none eat fuel hft] at h
          rcases List.mem_cons.mp h with h | h
          · exact h ▸ List.mem_cons_self _ _
          · exact List.mem_cons_of_mem _ (ih _ cs a h)

theorem mem_collapseWs : ∀ (l : List Char) (a : Char),
    a ∈ collapseWs l → a ∈ l ∨ a = ' ' := by
  intro l
  induction l with
  | nil => intro a h; simp [collapseWs] at h
  | cons c cs ih =>
    intro a h
    cases cs with
    | nil =>
      by_cases hc : isWs c = true
      · rw [show collapseWs [c] = [' '] by simp [collapseWs, hc]] at h
        right
        simpa using h
      · rw [Bool.not_eq_true] at hc
        rw [show collapseWs [c] = [c] by simp [collapseWs, hc]] at h
        left
        exact h
    | cons d cs' =>
      by_cases hc : isWs c = true
      · by_cases hd : isWs d = true
        · rw [show collapseWs (c :: d :: cs') = collapseWs (d :: cs') by
            simp [collapseWs, hc, hd]] at h
          rcases ih a h with h | h
          · exact Or.inl (List.mem_cons_of_mem _ h)
          · exact Or.inr h
        · rw [Bool.not_eq_true] at hd
          rw [show collapseWs (c :: d :: cs') = ' ' :: collapseWs (d :: cs') by
            simp [collapseWs, hc, hd]] at h
          rcases List.mem_cons.mp h with h | h
          · exact Or.inr h
          · rcases ih a h with h | h
            · exact Or.inl (List.mem_cons_of_mem _ h)
            · exact Or.inr h
      · rw [Bool.not_eq_true] at hc
        rw [show collapseWs (c :: d :: cs') = c :: collapseWs (d :: cs') by
          simp [collapseWs, hc]] at h
        rcases List.mem_cons.mp h with h | h
        · exact Or.inl (h ▸ List.mem_cons_self _ _)
        · rcases ih a h with h | h
          · exact Or.inl (List.mem_cons_of_mem _ h)
          · exact Or.inr h

theorem mem_lstrip {a : Char} {l : List Char} (h : a ∈ lstripWs l) : a ∈ l := by
  have hd : l.takeWhile isWs ++ lstripWs l = l :=
    List.takeWhile_append_dropWhile (p := isWs) (l := l)
  rw [← hd]
  exact List.mem_append_right _ h

theorem mem_rstrip {a : Char} {l : List Char} (h : a ∈ rstripWs l) : a ∈ l := by
  obtain ⟨hdec, -⟩ := rstrip_decomp l
  rw [hdec]
  exact List.mem_append_left _ h

theorem mem_pyStrip {a : Char} {l : List Char} (h : a ∈ pyStrip l) : a ∈ l :=
  mem_lstrip (mem_rstrip h)

/-! Idempotence of the normalizers. -/

theorem wf_companyToks : wfToks companySuffixToks := by
  unfold wfToks companySuffixToks
  decide

theorem wf_romanToksFinal : wfToks romanLevelToksFinal := by
  unfold wfToks romanLevelToksFinal
  decide

theorem wf_modifierToks : wfToks modifierToks := by
  unfold wfToks modifierToks
  decide

/-- The class normalize_company output has no \b-delimited suffix token
left in it. -/
theorem noTok_company_core (l : List Char) :
    ¬ hasTokAux companySuffixToks false (JobDeduplicator.normalize_company_core l) := by
  intro h
  unfold JobDeduplicator.normalize_company_core at h
  have h1 := hasTok_pull_pyStrip h
  have h2 := hasTok_pull_collapse wf_companyToks _ _ h1
  exact subTokensGo_noTok wf_companyToks true _ _ _ (le_refl _) h2

/-- The script normalize_title output has no \b-delimited level token
left in it: the modifier pass cannot re-create one. -/
theorem noTok_title_core_roman (l : List Char) :
    ¬ hasTokAux romanLevelToksFinal false (DeduplicateFinal.normalize_title_core l) := by
  intro h
  unfold DeduplicateFinal.normalize_title_core at h
  have h1 := hasTok_pull_pyStrip h
  have h2 := hasTok_pull_collapse wf_romanToksFinal _ _ h1
  have h3 := subTokensGo_pull wf_romanToksFinal false _ _ _ (le_refl _) h2
  exact subTokensGo_noTok wf_romanToksFinal false _ _ _ (le_refl _) h3

/-- The script normalize_title output has no \b-delimited modifier
token left in it. -/
theorem noTok_title_core_mod (l : List Char) :
    ¬ hasTokAux modifierToks false (DeduplicateFinal.normalize_title_core l) := by
  intro h
  unfold DeduplicateFinal.normalize_title_core at h
  have h1 := hasTok_pull_pyStrip h
  have h2 := hasTok_pull_collapse wf_modifierToks _ _ h1
  exact subTokensGo_noTok wf_modifierToks false _ _ _ (le_refl _) h2

theorem spaced_company_core (l : List Char) :
    spaced (JobDeduplicator.normalize_company_core l) = true := by
  unfold JobDeduplicator.normalize_company_core
  exact spaced_pyStrip _ (spaced_collapse _)

theorem spaced_title_core (l : List Char) :
    spaced (DeduplicateFinal.normalize_title_core l) = true := by
  unfold DeduplicateFinal.normalize_title_core
  exact spaced_pyStrip _ (spaced_collapse _)

theorem lower_fix_company_core (l : List Char) :
    ∀ c ∈ JobDeduplicator.normalize_company_core l, lowerChar c = c := by
  intro c hc
  unfold JobDeduplicator.normalize_company_core at hc
  have h1 := mem_pyStrip hc
  rcases mem_collapseWs _ _ h1 with h2 | h2
  · have h3 := mem_subTokensGo _ _ _ _ h2
    have h4 := mem_pyStrip h3
    obtain ⟨b, -, hb⟩ := List.mem_map.mp h4
    rw [← hb]
    exact lowerChar_idem b
  · rw [h2]
    decide

theorem lower_fix_title_core (l : List Char) :
    ∀ c ∈ DeduplicateFinal.normalize_title_core l, lowerChar c = c := by
  intro c hc
  unfold DeduplicateFinal.normalize_title_core at hc
  have h1 := mem_pyStrip hc
  rcases mem_collapseWs _ _ h1 with h2 | h2
  · have h3 := mem_subTokensGo _ _ _ _ h2
    have h4 := mem_subTokensGo _ _ _ _ h3
    rcases mem_collapseWs _ _ h4 with h5 | h5
    · have h6 := mem_pyStrip h5
      obtain ⟨b, -, hb⟩ := List.mem_map.mp h6
      rw [← hb]
      exact lowerChar_idem b
    · rw [h5]
      decide
  · rw [h2]
    decide

/-- Idempotence of the class normalize_company of deduplication.py. -/
theorem normalize_company_core_idem (l : List Char) :
    JobDeduplicator.normalize_company_core (JobDeduplicator.normalize_company_core l) =
      JobDeduplicator.normalize_company_core l := by
  have hlow : pyLower (JobDeduplicator.normalize_company_core l) =
      JobDeduplicator.normalize_company_core l :=
    pyLower_fix _ (lower_fix_company_core l)
  have hstrip : pyStrip (JobDeduplicator.normalize_company_core l) =
      JobDeduplicator.normalize_company_core l := by
    conv_lhs => rw [JobDeduplicator.normalize_company_core]
    rw [pyStrip_idem]
    rfl
  have hsub : subTokens companySuffixToks true (JobDeduplicator.normalize_company_core l) =
      JobDeduplicator.normalize_company_core l :=
    subTokensGo_eq_self true _ _ false (le_refl _) (noTok_company_core l)
  have hcol : collapseWs (JobDeduplicator.normalize_company_core l) =
      JobDeduplicator.normalize_company_core l :=
    collapse_eq_self_of_spaced _ (spaced_company_core l)
  calc JobDeduplicator.normalize_company_core (JobDeduplicator.normalize_company_core l)
      = pyStrip (collapseWs (subTokens companySuffixToks true
          (pyStrip (pyLower (JobDeduplicator.normalize_company_core l))))) := rfl
    _ = JobDeduplicator.normalize_company_core l := by
        rw [hlow, hstrip, hsub, hcol, hstrip]

/-- Idempotence of the script normalize_title of deduplicate_final.py. -/
theorem normalize_title_core_idem (l : List Char) :
    DeduplicateFinal.normalize_title_core (DeduplicateFinal.normalize_title_core l) =
      DeduplicateFinal.normalize_title_core l := by
  have hlow : pyLower (DeduplicateFinal.normalize_title_core l) =
      DeduplicateFinal.normalize_title_core l :=
    pyLower_fix _ (lower_fix_title_core l)
  have hstrip : pyStrip (DeduplicateFinal.normalize_title_core l) =
      DeduplicateFinal.normalize_title_core l := by
    conv_lhs => rw [DeduplicateFinal.normalize_title_core]
    rw [pyStrip_idem]
    rfl
  have hcol : collapseWs (DeduplicateFinal.normalize_title_core l) =
      DeduplicateFinal.normalize_title_core l :=
    collapse_eq_self_of_spaced _ (spaced_title_core l)
  have hsub1 : subTokens romanLevelToksFinal false (DeduplicateFinal.normalize_title_core l) =
      DeduplicateFinal.normalize_title_core l :=
    subTokensGo_eq_self false _ _ false (le_refl _) (noTok_title_core_roman l)
  have hsub2 : subTokens modifierToks false (DeduplicateFinal.normalize_title_core l) =
      DeduplicateFinal.normalize_title_core l :=
    subTokensGo_eq_self false _ _ false (le_refl _) (noTok_title_core_mod l)
  calc DeduplicateFinal.normalize_title_core (DeduplicateFinal.normalize_title_core l)
      = pyStrip (collapseWs (subTokens modifierToks false
          (subTokens romanLevelToksFinal false
            (collapseWs (pyStrip (pyLower (DeduplicateFinal.normalize_title_core l))))))) := rfl
    _ = DeduplicateFinal.normalize_title_core l := by
        rw [hlow, hstrip, hcol, hsub1, hsub2, hcol, hstrip]

/-! The claims. -/

/-- Unfolding of text_similarity_check on a frame with flags. -/
theorem text_similarity_check_some {df : JobDeduplicator.DFD} {flags : List Bool}
    (hcol : df.is_duplicate_col = some flags) (s : Nat) :
    JobDeduplicator.text_similarity_check df s =
      if (((df.rows.zip flags).filter (fun p => !p.2)).map Prod.fst).length <
          min s df.rows.length
      then Except.error "ValueError: cannot take a larger sample than population"
      else Except.ok df := by
  unfold JobDeduplicator.text_similarity_check
  rw [hcol]



/-- C1: the spec says normalization is pure and total — normalize_title
returns a string and never raises for every string or None input.  The
deduplicate_final.py copy is total, but the cited
JobDeduplicator.normalize_title of deduplication.py raises NameError on
every non-null input, because its line 32 reads the undefined name
company; only the None path returns.  The claim fails on the code at
the input "Data Analyst". -/
theorem c1_normalize_title_totality :
    JobDeduplicator.normalize_title (some "Data Analyst") =
      Except.error "NameError: name company is not defined"
    ∧ JobDeduplicator.normalize_title none = Except.ok []
    ∧ DeduplicateFinal.normalize_title (some "Data Analyst") = "data analyst".toList := by
  refine ⟨rfl, rfl, by decide⟩

/-- C2 counterexample: the two records of the scenario do not receive
one composite key — "New York, NY" and "nyc" normalize to different
location strings — so the resolver keeps both records instead of
reducing them to one. -/
theorem c2_counterexample :
    DeduplicateFinal.composite_key recAcme1 ≠ DeduplicateFinal.composite_key recAcme2
    ∧ DeduplicateFinal.keptRows [recAcme1, recAcme2] = [recAcme1, recAcme2] := by
  exact ⟨by decide, by decide⟩

/-- C2 amended: company and title of the two scenario records normalize
identically, but the locations differ after normalization — in the
script normalizer ("new york, ny" against "nyc") and in the class alias
table ("new york, ny" against "new york") — so the records land in
different groups and both are kept. -/
theorem c2_exact_dedup_amended :
    DeduplicateFinal.normalize_company recAcme1.company_name =
      DeduplicateFinal.normalize_company recAcme2.company_name
    ∧ DeduplicateFinal.normalize_title recAcme1.title =
      DeduplicateFinal.normalize_title recAcme2.title
    ∧ DeduplicateFinal.normalize_text recAcme1.location ≠
      DeduplicateFinal.normalize_text recAcme2.location
    ∧ JobDeduplicator.normalize_location recAcme1.location ≠
      JobDeduplicator.normalize_location recAcme2.location
    ∧ (DeduplicateFinal.keptRows [recAcme1, recAcme2]).length = 2
    ∧ (DeduplicateFinal.dupRows [recAcme1, recAcme2]).length = 0 := by
  refine ⟨by decide, by decide, by decide, by decide, by decide, by decide⟩

/-- C3: first occurrence in input order wins.  Whenever a later record
shares the composite key of an earlier one it is flagged duplicate, and
a record whose key has no earlier occurrence is not flagged and appears
among the kept rows — in particular the earliest record of every key. -/
theorem c3_first_seen_survivor :
    (∀ (rs : List Rec) (i j : Nat) (hij : i < j) (hj : j < rs.length),
      DeduplicateFinal.composite_key (rs.get ⟨i, by omega⟩) =
        DeduplicateFinal.composite_key (rs.get ⟨j, hj⟩) →
      (DeduplicateFinal.is_duplicate rs).getD j false = true)
    ∧ (∀ (rs : List Rec) (i : Nat) (hi : i < rs.length),
      (∀ k (hk : k < i), DeduplicateFinal.composite_key (rs.get ⟨k, by omega⟩) ≠
        DeduplicateFinal.composite_key (rs.get ⟨i, hi⟩)) →
      (DeduplicateFinal.is_duplicate rs).getD i false = false
      ∧ rs.get ⟨i, hi⟩ ∈ DeduplicateFinal.keptRows rs) := by
  constructor
  · intro rs i j hij hj hkey
    rw [DeduplicateFinal.is_duplicate_true_iff rs j hj]
    exact ⟨i, hij, hkey⟩
  · intro rs i hi hfirst
    have hflag : (DeduplicateFinal.is_duplicate rs).getD i false = false := by
      cases hfl : (DeduplicateFinal.is_duplicate rs).getD i false
      · rfl
      · obtain ⟨j, hj, hkey⟩ := (DeduplicateFinal.is_duplicate_true_iff rs i hi).mp hfl
        exact absurd hkey (hfirst j hj)
    exact ⟨hflag, DeduplicateFinal.mem_kept_of_flag_false rs i hi hflag⟩

/-- C3 witness: on the six-record input whose records at index 0 and
index 5 share one key, the record at index 5 is flagged duplicate and
the record at index 0 is unflagged and kept. -/
theorem c3_witness :
    (DeduplicateFinal.is_duplicate sixRecs).getD 5 false = true
    ∧ (DeduplicateFinal.is_duplicate sixRecs).getD 0 false = false
    ∧ sixRecs.get ⟨0, by decide⟩ ∈ DeduplicateFinal.keptRows sixRecs := by
  refine ⟨?_, ?_, ?_⟩
  · exact c3_first_seen_survivor.1 sixRecs 0 5 (by decide) (by decide) (by decide)
  · exact (c3_first_seen_survivor.2 sixRecs 0 (by decide)
      (fun k hk => absurd hk (Nat.not_lt_zero k))).1
  · exact (c3_first_seen_survivor.2 sixRecs 0 (by decide)
      (fun k hk => absurd hk (Nat.not_lt_zero k))).2

/-- C4: exact-match completeness.  For every input the kept rows and
the duplicate rows are a partition: their lengths sum to the input
length and their concatenation is a permutation of the input, so every
record lands in exactly one of the two sequences. -/
theorem c4_partition (rs : List Rec) :
    (DeduplicateFinal.keptRows rs).length + (DeduplicateFinal.dupRows rs).length = rs.length
    ∧ (DeduplicateFinal.keptRows rs ++ DeduplicateFinal.dupRows rs).Perm rs :=
  ⟨DeduplicateFinal.kept_dup_length rs, DeduplicateFinal.kept_append_dup_perm rs⟩

/-- C5 counterexample: normalize_location is not idempotent.  At the
string "laf" one application gives "los angelesf"; the second
application finds the substring "sf" produced by the junction of the
first replacement and rewrites again. -/
theorem c5_counterexample :
    JobDeduplicator.normalize_location_core
        (JobDeduplicator.normalize_location_core "laf".toList) ≠
      JobDeduplicator.normalize_location_core "laf".toList := by
  decide

/-- C5 amended: normalize_company (the class implementation cited) and
normalize_title (the script implementation cited) are idempotent for
every string; the location normalizer, built on sequential substring
replacement, is not (see the counterexample). -/
theorem c5_idempotence_amended (l : List Char) :
    JobDeduplicator.normalize_company_core (JobDeduplicator.normalize_company_core l) =
      JobDeduplicator.normalize_company_core l
    ∧ DeduplicateFinal.normalize_title_core (DeduplicateFinal.normalize_title_core l) =
      DeduplicateFinal.normalize_title_core l :=
  ⟨normalize_company_core_idem l, normalize_title_core_idem l⟩

/-- C6 counterexample: the deduplication.py normalize_title does not
strip the standalone tokens vi and 4 — its regex on line 29 covers only
i, ii, iii, iv, v, 1, 2, 3, so the line-29 substitution leaves
"data analyst vi" unchanged, and the function itself raises NameError
before returning anyway. -/
theorem c6_counterexample :
    JobDeduplicator.normalize_title (some "data analyst vi") =
      Except.error "NameError: name company is not defined"
    ∧ JobDeduplicator.title_level_sub "data analyst vi".toList =
      "data analyst vi".toList := by
  exact ⟨rfl, by decide⟩

/-- C6 amended: the deduplicate_final.py normalize_title strips Roman
numerals i through vi and the digits 1 through 4 as standalone tokens:
for every title, no whole-word occurrence of "vi" or "4" survives in
its output.  The deduplication.py variant strips only i through v and
1 through 3 and raises before returning. -/
theorem c6_level_tokens_amended (t : Option String) :
    ¬ hasTokAux ["vi".toList, "4".toList] false (DeduplicateFinal.normalize_title t) := by
  intro h
  have hsub : ∀ x ∈ (["vi".toList, "4".toList] : List (List Char)),
      x ∈ romanLevelToksFinal := by decide
  have h2 := hasTokAux_mono hsub h
  cases t with
  | none => exact hasTokAux_nil wf_romanToksFinal h2
  | some s => exact noTok_title_core_roman s.toList h2

/-- C6 witness: instance of the amended claim at a concrete title. -/
theorem c6_witness :
    ¬ hasTokAux ["vi".toList, "4".toList] false
      (DeduplicateFinal.normalize_title (some "senior data analyst vi")) :=
  c6_level_tokens_amended (some "senior data analyst vi")

/-- C7: the spec says the sampler draws at most sample_size records
from the kept set and never fails whatever the relative sizes.  The
code draws min(sample_size, len(df)) — not len(kept) — so on two
records with one exact duplicate and the default sample_size the
pipeline of lines 116-117 raises ValueError inside DataFrame.sample. -/
theorem c7_sampler_valueerror :
    usage_stage12 [recNullTitle, recNullTitle] 1000 =
      Except.error "ValueError: cannot take a larger sample than population" := by
  rfl

/-- C8: the similarity stage is advisory.  The pair loop reports
exactly the index pairs (i, j) with i < j inside the sample whose score
exceeds the threshold, and a successful text_similarity_check returns
the very frame it was given, so the final kept set is unchanged and
both members of every reported pair remain kept. -/
theorem c8_similarity_advisory :
    (∀ (m : Nat) (sim : Nat → Nat → ℚ) (threshold : ℚ) (i j : Nat),
      ((i, j) ∈ JobDeduplicator.similar_pairs m sim threshold ↔
        i < j ∧ j < m ∧ threshold < sim i j))
    ∧ (∀ (df : JobDeduplicator.DFD) (s : Nat) (out : JobDeduplicator.DFD),
      JobDeduplicator.text_similarity_check df s = Except.ok out →
        out = df ∧ JobDeduplicator.df_final out = JobDeduplicator.df_final df) := by
  constructor
  · intro m sim threshold i j
    unfold JobDeduplicator.similar_pairs
    simp only [List.mem_flatMap, List.mem_map, List.mem_filter, List.mem_range,
      Bool.and_eq_true, decide_eq_true_eq, Prod.mk.injEq]
    constructor
    · rintro ⟨a, ha, b, ⟨hb, hab, hsim⟩, rfl, rfl⟩
      exact ⟨hab, hb, hsim⟩
    · rintro ⟨h1, h2, h3⟩
      exact ⟨i, by omega, j, ⟨h2, h1, h3⟩, rfl, rfl⟩
  · intro df s out h
    cases hcol : df.is_duplicate_col with
    | none =>
      unfold JobDeduplicator.text_similarity_check at h
      rw [hcol] at h
      exact absurd h (by simp)
    | some flags =>
      rw [text_similarity_check_some hcol] at h
      by_cases hlt : (((df.rows.zip flags).filter (fun p => !p.2)).map Prod.fst).length <
          min s df.rows.length
      · rw [if_pos hlt] at h
        exact absurd h (by simp)
      · rw [if_neg hlt] at h
        have hdf : out = df := by
          injection h with h'
          exact h'.symm
        exact ⟨hdf, by rw [hdf]⟩

/-- C8 witness: the pair (0, 1) with score 9/10 above the threshold
85/100 is reported, and the check succeeds on a two-kept-row frame
returning it unchanged. -/
theorem c8_witness :
    (0, 1) ∈ JobDeduplicator.similar_pairs 2 (fun _ _ => (9 : ℚ)/10) ((85 : ℚ)/100)
    ∧ (dfTwoKept = dfTwoKept
      ∧ JobDeduplicator.df_final dfTwoKept = JobDeduplicator.df_final dfTwoKept) := by
  constructor
  · exact (c8_similarity_advisory.1 2 (fun _ _ => (9 : ℚ)/10) ((85 : ℚ)/100) 0 1).mpr
      ⟨by norm_num, by norm_num, by norm_num⟩
  · exact c8_similarity_advisory.2 dfTwoKept 1000 dfTwoKept rfl

/-- C9 counterexample: find_duplicates mutates the record sequence
passed to it — after calling it on a freshly loaded one-record frame
the caller's frame carries a company_norm column and is no longer the
frame that was passed in. -/
theorem c9_counterexample :
    JobDeduplicator.find_duplicates_state (JobDeduplicator.DFD.ofRows [recPlain]) ≠
      JobDeduplicator.DFD.ofRows [recPlain] := by
  decide

/-- C9 amended: find_duplicates leaves the ingested rows intact but
mutates the passed frame by assigning derived columns (company_norm on
every path, the remaining five on the success path);
text_similarity_check never modifies the frame — whenever it returns
successfully it returns the frame it was given. -/
theorem c9_mutation_amended (df : JobDeduplicator.DFD) (s : Nat) :
    (JobDeduplicator.find_duplicates_state df).rows = df.rows
    ∧ (JobDeduplicator.find_duplicates_state df).company_norm =
      some (df.rows.map (fun r => JobDeduplicator.normalize_company r.company_name))
    ∧ (∀ out, JobDeduplicator.text_similarity_check df s = Except.ok out → out = df) := by
  refine ⟨?_, ?_, ?_⟩
  · unfold JobDeduplicator.find_duplicates_state JobDeduplicator.find_duplicates
    cases hm : df.rows.mapM (fun r => JobDeduplicator.normalize_title r.title) <;>
      simp [hm]
  · unfold JobDeduplicator.find_duplicates_state JobDeduplicator.find_duplicates
    cases hm : df.rows.mapM (fun r => JobDeduplicator.normalize_title r.title) <;>
      simp [hm]
  · intro out h
    cases hcol : df.is_duplicate_col with
    | none =>
      unfold JobDeduplicator.text_similarity_check at h
      rw [hcol] at h
      exact absurd h (by simp)
    | some flags =>
      rw [text_similarity_check_some hcol] at h
      by_cases hlt : (((df.rows.zip flags).filter (fun p => !p.2)).map Prod.fst).length <
          min s df.rows.length
      · rw [if_pos hlt] at h
        exact absurd h (by simp)
      · rw [if_neg hlt] at h
        injection h with h'
        exact h'.symm

/-- C9 witness: instance of the amended claim at a concrete frame. -/
theorem c9_witness :
    (JobDeduplicator.find_duplicates_state dfTwoKept).rows = dfTwoKept.rows
    ∧ (JobDeduplicator.find_duplicates_state dfTwoKept).company_norm =
      some (dfTwoKept.rows.map (fun r => JobDeduplicator.normalize_company r.company_name))
    ∧ dfTwoKept = dfTwoKept := by
  have h := c9_mutation_amended dfTwoKept 1000
  exact ⟨h.1, h.2.1, h.2.2 dfTwoKept rfl⟩

/-- C10: after deduplication the job_id column of df_clean is exactly
the sequence 1..len(kept) in kept order, whatever job_id values the
input rows carried. -/
theorem c10_job_id_reassigned (rs : List Rec) :
    (DeduplicateFinal.df_clean rs).map Rec.job_id =
      (List.range (DeduplicateFinal.keptRows rs).length).map (fun (i : Nat) => (i : Int) + 1) :=
  DeduplicateFinal.mapIdx_job_id (DeduplicateFinal.keptRows rs) (fun i => (i : Int) + 1)
